import Mathlib

/-!
# Verification of the xappy query-result cache subsystem

Shallow embedding of the cache storage, slot-allocation, inversion and merge
subsystem of the xappy repository (`xappy/cachemanager/xapian_manager.py`,
`xappy/indexerconnection.py`, `libs/secore/secore/searchconnection.py`),
with theorems settling the testable properties of its specification.
-/

namespace Xappy

/-- `BASE_CACHE_SLOT` from `xapian_manager.py`. -/
def BASE_CACHE_SLOT : Nat := 10000

/-- `CACHE_MANAGER_MAX_HITS` from `xapian_manager.py`. -/
def CACHE_MANAGER_MAX_HITS : Nat := 1000000

/-- Byte extraction loop of the serialisation, structurally recursive on a
fuel argument so that it evaluates by kernel reduction. -/
def serialiseAux : Nat → Nat → List Nat
  | 0, _ => []
  | fuel + 1, x => if x = 0 then [] else (x % 256) :: serialiseAux fuel (x / 256)

/-- Modelled from the spec: Xapian's `xapian.sortable_serialise`, the index's
"monotonic-sortable numeric encode/decode primitive" (spec §6).  The primitive
is part of the external document-index collaborator and its code is not in the
repository; it is modelled as a little-endian byte-list serialisation of a
natural number, exactly decodable by `sortable_unserialise`. -/
def sortable_serialise (x : Nat) : List Nat :=
  serialiseAux x x

/-- Modelled from the spec: Xapian's `xapian.sortable_unserialise`, the decode
half of the external index's sortable numeric primitive (spec §6). -/
def sortable_unserialise (l : List Nat) : Nat :=
  l.foldr (fun d acc => d + 256 * acc) 0

theorem sortable_unserialise_serialiseAux (fuel : Nat) :
    ∀ x, x ≤ fuel → sortable_unserialise (serialiseAux fuel x) = x := by
  induction fuel with
  | zero =>
    intro x hx
    interval_cases x
    rfl
  | succ fuel ih =>
    intro x hx
    rw [serialiseAux]
    by_cases h : x = 0
    · simp [h, sortable_unserialise]
    · rw [if_neg h]
      have hle : x / 256 ≤ fuel := by
        have : x / 256 < x := Nat.div_lt_self (Nat.pos_of_ne_zero h) (by omega)
        omega
      have := ih (x / 256) hle
      simp only [sortable_unserialise, List.foldr_cons] at this ⊢
      omega

theorem sortable_unserialise_serialise (x : Nat) :
    sortable_unserialise (sortable_serialise x) = x :=
  sortable_unserialise_serialiseAux x x (Nat.le_refl x)

/-- The value written into a document's slot for a hit at rank `rank`, from
`XapianCacheManager.apply_cached_items` (`xapian_manager.py` line 171):
`xapian.sortable_serialise(CACHE_MANAGER_MAX_HITS - rank)`. -/
def persistedRank (rank : Nat) : List Nat :=
  sortable_serialise (CACHE_MANAGER_MAX_HITS - rank)

/-- The rank decoded from a stored slot value by the removal/merge paths, from
`XapianCacheManager.remove_cached_items` (`xapian_manager.py` lines 119-120):
`int(CACHE_MANAGER_MAX_HITS - xapian.sortable_unserialise(value.value))`. -/
def decodedRank (v : List Nat) : Nat :=
  CACHE_MANAGER_MAX_HITS - sortable_unserialise v

/-- C1: for every rank `r` with `0 ≤ r ≤ CACHE_MANAGER_MAX_HITS`, decoding the
PersistedRank written by `apply_cached_items` for a hit at rank `r` with the
decode used by the removal/merge paths yields exactly `r`: the encode and
decode are exact mutual inverses on the rank range. -/
theorem rank_roundtrip (r : Nat) (h : r ≤ CACHE_MANAGER_MAX_HITS) :
    decodedRank (persistedRank r) = r := by
  unfold decodedRank persistedRank
  rw [sortable_unserialise_serialise]
  unfold CACHE_MANAGER_MAX_HITS at *
  omega

theorem rank_roundtrip_witness :
    (42 : Nat) ≤ CACHE_MANAGER_MAX_HITS ∧ decodedRank (persistedRank 42) = 42 :=
  ⟨by decide, rank_roundtrip 42 (by decide)⟩

/-! ## Slot allocation

`XapianCacheManager.apply_cached_items` (`xapian_manager.py` lines 145-159)
maintains, in the indexer connection, a table `_caches : cache_id → offset`
(persisted as the `caches` metadata key) and a high-water mark
`num_cache_slots`.  `cache_manager_slot_start` (lines 357-361) resolves a
cache's base slot as `BASE_CACHE_SLOT + offset`. -/

/-- The slot-allocation state held by an indexer connection: the decoded
`caches` metadata table (an association from cache id to slot offset, modelled
as a list in insertion order) and the `num_cache_slots` metadata value. -/
structure SlotState where
  caches : List (String × Nat)
  numCacheSlots : Nat
  deriving Repr, DecidableEq

/-- The fresh slot-allocation state of an index no cache was applied to:
no `caches` table, `num_cache_slots` metadata absent (read as `0`). -/
def SlotState.init : SlotState := ⟨[], 0⟩

/-- The slot-registration step of `XapianCacheManager.apply_cached_items`
(`xapian_manager.py` lines 145-153): if `cache_id` is not yet in the table it
is recorded at the current `num_cache_slots`; `num_cache_slots` is then
unconditionally advanced by the cache's query count. -/
def registerCache (nq : Nat) (cid : String) (s : SlotState) : SlotState :=
  let caches :=
    if (s.caches.lookup cid).isSome then s.caches
    else s.caches ++ [(cid, s.numCacheSlots)]
  ⟨caches, s.numCacheSlots + nq⟩

/-- `cache_manager_slot_start` (`xapian_manager.py` lines 357-361): the base
slot of a cache is `BASE_CACHE_SLOT` plus its recorded offset (`0` when the
cache id is unknown). -/
def cache_manager_slot_start (s : SlotState) (cid : String) : Nat :=
  BASE_CACHE_SLOT + ((s.caches.lookup cid).getD 0)

/-- Fold a sequence of registrations (`apply_cached_items` calls), the query
count of each cache given by the fixed function `nqOf`. -/
def registerAll (nqOf : String → Nat) (seq : List String) : SlotState :=
  seq.foldl (fun s cid => registerCache (nqOf cid) cid s) SlotState.init

/-- Two slot ranges `[b₁, b₁+n₁)` and `[b₂, b₂+n₂)` share no slot. -/
def rangesDisjoint (b₁ n₁ b₂ n₂ : Nat) : Prop :=
  b₁ + n₁ ≤ b₂ ∨ b₂ + n₂ ≤ b₁

theorem lookup_append_of_none {α β : Type} [BEq α] (l₁ l₂ : List (α × β)) (a : α)
    (h : l₁.lookup a = none) : (l₁ ++ l₂).lookup a = l₂.lookup a := by
  induction l₁ with
  | nil => rfl
  | cons p t ih =>
    obtain ⟨k, v⟩ := p
    simp only [List.cons_append, List.lookup] at h ⊢
    cases hb : a == k with
    | true =>
      simp only [hb] at h
      exact absurd h (by simp)
    | false =>
      simp only [hb] at h ⊢
      exact ih h

theorem registerCache_numCacheSlots (nq : Nat) (cid : String) (s : SlotState) :
    (registerCache nq cid s).numCacheSlots = s.numCacheSlots + nq := rfl

theorem registerCache_caches_def (nq : Nat) (cid : String) (s : SlotState) :
    (registerCache nq cid s).caches =
      if (s.caches.lookup cid).isSome then s.caches
      else s.caches ++ [(cid, s.numCacheSlots)] := rfl

theorem registerCache_lookup_isSome (nq : Nat) (cid : String) (s : SlotState) :
    (((registerCache nq cid s).caches.lookup cid)).isSome := by
  unfold registerCache
  by_cases hc : (s.caches.lookup cid).isSome
  · rw [if_pos hc]; exact hc
  · rw [if_neg hc,
      lookup_append_of_none _ _ _ (Option.not_isSome_iff_eq_none.mp hc)]
    simp [List.lookup_cons]

theorem registerCache_caches_of_isSome (nq : Nat) (cid : String) (s : SlotState)
    (h : (s.caches.lookup cid).isSome) :
    (registerCache nq cid s).caches = s.caches := by
  unfold registerCache
  rw [if_pos h]

/-- Allocation invariant: every recorded range fits under the high-water mark,
and recorded ranges are pairwise disjoint. -/
def slotInv (nqOf : String → Nat) (s : SlotState) : Prop :=
  (∀ p ∈ s.caches, p.2 + nqOf p.1 ≤ s.numCacheSlots) ∧
  s.caches.Pairwise (fun p q =>
    rangesDisjoint (BASE_CACHE_SLOT + p.2) (nqOf p.1)
                   (BASE_CACHE_SLOT + q.2) (nqOf q.1))

theorem slotInv_init (nqOf : String → Nat) : slotInv nqOf SlotState.init := by
  constructor
  · intro p hp; simp [SlotState.init] at hp
  · simp [SlotState.init]

theorem slotInv_step (nqOf : String → Nat) (s : SlotState) (cid : String)
    (h : slotInv nqOf s) : slotInv nqOf (registerCache (nqOf cid) cid s) := by
  obtain ⟨hbound, hpair⟩ := h
  constructor
  · intro p hp
    rw [registerCache_caches_def] at hp
    rw [registerCache_numCacheSlots]
    by_cases hc : (s.caches.lookup cid).isSome
    · rw [if_pos hc] at hp
      have := hbound p hp
      omega
    · rw [if_neg hc] at hp
      rcases List.mem_append.mp hp with h1 | h2
      · have := hbound p h1; omega
      · rw [List.mem_singleton] at h2
        subst h2
        show s.numCacheSlots + nqOf cid ≤ s.numCacheSlots + nqOf cid
        exact Nat.le_refl _
  · rw [registerCache_caches_def]
    by_cases hc : (s.caches.lookup cid).isSome
    · rw [if_pos hc]
      exact hpair
    · rw [if_neg hc, List.pairwise_append]
      refine ⟨hpair, List.pairwise_singleton _ _, ?_⟩
      intro p hp q hq
      rw [List.mem_singleton] at hq
      subst hq
      have := hbound p hp
      show rangesDisjoint (BASE_CACHE_SLOT + p.2) (nqOf p.1)
        (BASE_CACHE_SLOT + s.numCacheSlots) (nqOf cid)
      unfold rangesDisjoint
      omega

theorem slotInv_registerAll (nqOf : String → Nat) (seq : List String) :
    slotInv nqOf (registerAll nqOf seq) := by
  unfold registerAll
  induction seq using List.reverseRecOn with
  | nil => exact slotInv_init nqOf
  | append_singleton xs x ih =>
    rw [List.foldl_append]
    exact slotInv_step nqOf _ x ih

/-- C3: after any sequence of `apply_cached_items` registrations with each
cache's query count fixed, the slot ranges `[BASE_CACHE_SLOT + offset,
BASE_CACHE_SLOT + offset + num_queries)` of distinct cache ids are pairwise
disjoint and lie entirely at or above `BASE_CACHE_SLOT = 10000`; and
re-registering an already-known cache id leaves its recorded offset
unchanged. -/
theorem slot_ranges_disjoint (nqOf : String → Nat) (seq : List String) :
    (∀ p ∈ (registerAll nqOf seq).caches, ∀ q ∈ (registerAll nqOf seq).caches,
      p.1 ≠ q.1 →
      rangesDisjoint (BASE_CACHE_SLOT + p.2) (nqOf p.1)
                     (BASE_CACHE_SLOT + q.2) (nqOf q.1)) ∧
    (∀ p ∈ (registerAll nqOf seq).caches, BASE_CACHE_SLOT ≤ BASE_CACHE_SLOT + p.2) ∧
    (∀ cid, ((registerAll nqOf seq).caches.lookup cid).isSome →
      (registerCache (nqOf cid) cid (registerAll nqOf seq)).caches.lookup cid
        = (registerAll nqOf seq).caches.lookup cid) := by
  obtain ⟨hbound, hpair⟩ := slotInv_registerAll nqOf seq
  refine ⟨?_, ?_, ?_⟩
  · intro p hp q hq hne
    have hsymm : Symmetric (fun p q : String × Nat =>
        rangesDisjoint (BASE_CACHE_SLOT + p.2) (nqOf p.1)
                       (BASE_CACHE_SLOT + q.2) (nqOf q.1)) := by
      intro a b hab
      unfold rangesDisjoint at hab ⊢
      omega
    exact hpair.forall hsymm hp hq (fun he => hne (by rw [he]))
  · intro p _; omega
  · intro cid hc
    rw [registerCache_caches_of_isSome _ _ _ hc]

theorem slot_ranges_disjoint_witness :
    rangesDisjoint (BASE_CACHE_SLOT + 0) 2 (BASE_CACHE_SLOT + 2) 3 := by
  have h := (slot_ranges_disjoint (fun c => if c = "a" then 2 else 3)
    ["a", "b", "a"]).1 ("a", 0) (by decide) ("b", 2) (by decide) (by decide)
  simpa using h

/-- C10: every `apply_cached_items` call advances the `num_cache_slots`
metadata by the cache's query count, including repeat applications of an
already-registered cache id: applying the same cache `n + 1` times from any
state yields `num_cache_slots` larger by `(n + 1) * num_queries`, while the
`caches` table (hence the cache's slot range) after the repeats is exactly the
table after the first application. -/
theorem repeat_apply_advances_slots (nq : Nat) (cid : String) (s : SlotState) (n : Nat) :
    ((registerCache nq cid)^[n + 1] s).numCacheSlots
        = s.numCacheSlots + (n + 1) * nq ∧
    ((registerCache nq cid)^[n + 1] s).caches = (registerCache nq cid s).caches ∧
    cache_manager_slot_start ((registerCache nq cid)^[n + 1] s) cid
        = cache_manager_slot_start (registerCache nq cid s) cid := by
  have hnum : ∀ t : SlotState, (registerCache nq cid t).numCacheSlots
      = t.numCacheSlots + nq := fun t => rfl
  induction n with
  | zero =>
    refine ⟨?_, rfl, rfl⟩
    rw [Function.iterate_one, hnum, Nat.one_mul]
  | succ n ih =>
    obtain ⟨ih1, ih2, _⟩ := ih
    rw [Function.iterate_succ_apply']
    have hcaches : (registerCache nq cid ((registerCache nq cid)^[n + 1] s)).caches
        = (registerCache nq cid s).caches := by
      rw [registerCache_caches_of_isSome]
      · exact ih2
      · rw [ih2]
        exact registerCache_lookup_isSome nq cid s
    refine ⟨?_, hcaches, ?_⟩
    · rw [hnum, ih1]
      ring
    · unfold cache_manager_slot_start
      rw [hcaches]

/-! ## Documents, the index, and cache application

A Xapian document is modelled by its value slots: an association of slot
number to stored value, mutated by `doc.add_value(slot, value)` (which
overwrites the value at a slot) and read back by `doc.values()` /
`doc.get_value(slot)`.  The index maps Xapian document ids to documents,
with `get_document` / `replace_document`. -/

/-- A stored slot value (a byte string). -/
abbrev SlotValue := List Nat

/-- A document's value slots, in ascending slot order as `doc.values()`
iterates them. -/
abbrev Doc := List (Nat × SlotValue)

/-- `doc.add_value(slot, v)`: overwrite the value at `slot`, keeping the
slot list in ascending order. -/
def addValue (slot : Nat) (v : SlotValue) : Doc → Doc
  | [] => [(slot, v)]
  | (s, w) :: t =>
    if slot < s then (slot, v) :: (s, w) :: t
    else if slot = s then (slot, v) :: t
    else (s, w) :: addValue slot v t

/-- `doc.get_value(slot)`: the value stored at a slot, if any. -/
def getValue (slot : Nat) : Doc → Option SlotValue
  | [] => none
  | (s, w) :: t => if s = slot then some w else getValue slot t

/-- The index: an association of Xapian document id to document. -/
abbrev Index := List (Nat × Doc)

/-- `db.get_document(xapid)`, as an `Option` (`none` models
`xapian.DocNotFoundError`). -/
def getDoc (xapid : Nat) : Index → Option Doc
  | [] => none
  | (i, e) :: t => if i = xapid then some e else getDoc xapid t

/-- `db.replace_document(xapid, doc)`: replace the document stored under
`xapid` (creating it when absent, as Xapian does). -/
def replaceDoc (xapid : Nat) (d : Doc) : Index → Index
  | [] => [(xapid, d)]
  | (i, e) :: t => if i = xapid then (xapid, d) :: t else (i, e) :: replaceDoc xapid d t

theorem getValue_addValue_self (slot : Nat) (v : SlotValue) (d : Doc) :
    getValue slot (addValue slot v d) = some v := by
  induction d with
  | nil => simp [addValue, getValue]
  | cons p t ih =>
    obtain ⟨s, w⟩ := p
    rw [addValue]
    by_cases h1 : slot < s
    · rw [if_pos h1, getValue, getValue, if_pos rfl]
    · rw [if_neg h1]
      by_cases h2 : slot = s
      · rw [if_pos h2, getValue, if_pos rfl]
      · rw [if_neg h2]
        simp only [getValue]
        rw [if_neg (fun hs => h2 hs.symm)]
        exact ih

theorem getValue_addValue_ne (slot slot' : Nat) (v : SlotValue) (d : Doc)
    (h : slot ≠ slot') : getValue slot' (addValue slot v d) = getValue slot' d := by
  induction d with
  | nil => simp [addValue, getValue, h]
  | cons p t ih =>
    obtain ⟨s, w⟩ := p
    rw [addValue]
    by_cases h1 : slot < s
    · rw [if_pos h1, getValue, if_neg h, getValue]
    · rw [if_neg h1]
      by_cases h2 : slot = s
      · subst h2
        simp only [getValue]
        rw [if_neg h, if_neg h]
      · rw [if_neg h2]
        simp only [getValue]
        by_cases h3 : s = slot'
        · rw [if_pos h3, if_pos h3]
        · rw [if_neg h3, if_neg h3]
          exact ih

/-- Perform a list of `(slot, value)` writes on a document, in order. -/
def writeAll (ws : List (Nat × SlotValue)) (d : Doc) : Doc :=
  ws.foldl (fun d w => addValue w.1 w.2 d) d

/-- The last value written to `slot` by a write list, if any. -/
def lastWriteVal (slot : Nat) : List (Nat × SlotValue) → Option SlotValue
  | [] => none
  | w :: ws =>
    match lastWriteVal slot ws with
    | some v => some v
    | none => if w.1 = slot then some w.2 else none

theorem getValue_writeAll (slot : Nat) (ws : List (Nat × SlotValue)) :
    ∀ d, getValue slot (writeAll ws d) =
      match lastWriteVal slot ws with
      | some v => some v
      | none => getValue slot d := by
  induction ws with
  | nil => intro d; rfl
  | cons w ws ih =>
    intro d
    show getValue slot (writeAll ws (addValue w.1 w.2 d)) = _
    rw [ih]
    rw [lastWriteVal]
    cases lastWriteVal slot ws with
    | some v => rfl
    | none =>
      by_cases h : w.1 = slot
      · rw [if_pos h, h, getValue_addValue_self]
      · rw [if_neg h, getValue_addValue_ne _ _ _ _ h]

theorem getValue_writeAll_writeAll (slot : Nat) (ws : List (Nat × SlotValue)) (d : Doc) :
    getValue slot (writeAll ws (writeAll ws d)) = getValue slot (writeAll ws d) := by
  rw [getValue_writeAll, getValue_writeAll]
  cases lastWriteVal slot ws <;> rfl

theorem getDoc_replaceDoc_self (xapid : Nat) (d : Doc) (idx : Index) :
    getDoc xapid (replaceDoc xapid d idx) = some d := by
  induction idx with
  | nil => simp [replaceDoc, getDoc]
  | cons p t ih =>
    obtain ⟨i, e⟩ := p
    rw [replaceDoc]
    by_cases h : i = xapid
    · rw [if_pos h]
      simp [getDoc]
    · rw [if_neg h]
      simp only [getDoc]
      rw [if_neg h]
      exact ih

theorem getDoc_replaceDoc_ne (xapid xapid' : Nat) (d : Doc) (idx : Index)
    (h : xapid ≠ xapid') :
    getDoc xapid' (replaceDoc xapid d idx) = getDoc xapid' idx := by
  induction idx with
  | nil => simp [replaceDoc, getDoc, h]
  | cons p t ih =>
    obtain ⟨i, e⟩ := p
    rw [replaceDoc]
    by_cases h1 : i = xapid
    · rw [if_pos h1]
      simp only [getDoc]
      rw [if_neg h, if_neg (h1 ▸ h)]
    · rw [if_neg h1]
      simp only [getDoc]
      by_cases h2 : i = xapid'
      · rw [if_pos h2, if_pos h2]
      · rw [if_neg h2, if_neg h2]
        exact ih

/-- The slot writes one inverted entry `(docid, items)` performs on its
document: slot `slot_start + queryid` receives
`sortable_serialise(CACHE_MANAGER_MAX_HITS - rank)`
(`xapian_manager.py` lines 169-172). -/
def entryWrites (slotStart : Nat) (items : List (Nat × Nat)) : List (Nat × SlotValue) :=
  items.map (fun qr => (slotStart + qr.1, persistedRank qr.2))

/-- The document-update loop of `apply_cached_items` (`xapian_manager.py`
lines 161-173): for each `(xapid, items)` yielded by `iter_by_docid`, fetch
the live document (skipping the entry silently when
`xapian.DocNotFoundError` is raised, i.e. when `getDoc` is `none`), add the
per-query slot values, and write the document back. -/
def applyInv (slotStart : Nat) (inv : List (Nat × List (Nat × Nat))) (idx : Index) : Index :=
  inv.foldl (fun idx e =>
    match getDoc e.1 idx with
    | none => idx
    | some d => replaceDoc e.1 (writeAll (entryWrites slotStart e.2) d) idx) idx

/-- All writes a full `apply_cached_items` pass aims at document `xapid`:
the concatenated writes of the inverted entries carrying that docid. -/
def invWrites (slotStart : Nat) (inv : List (Nat × List (Nat × Nat))) (xapid : Nat) :
    List (Nat × SlotValue) :=
  (inv.filter (fun e => e.1 == xapid)).flatMap (fun e => entryWrites slotStart e.2)

theorem getDoc_applyInv (slotStart : Nat) (inv : List (Nat × List (Nat × Nat))) :
    ∀ (idx : Index) (xapid : Nat),
      getDoc xapid (applyInv slotStart inv idx) =
        (getDoc xapid idx).map (fun d => writeAll (invWrites slotStart inv xapid) d) := by
  induction inv with
  | nil =>
    intro idx xapid
    show getDoc xapid idx = _
    cases getDoc xapid idx <;> rfl
  | cons e inv ih =>
    intro idx xapid
    show getDoc xapid (applyInv slotStart inv
      (match getDoc e.1 idx with
       | none => idx
       | some d => replaceDoc e.1 (writeAll (entryWrites slotStart e.2) d) idx)) = _
    rw [ih]
    by_cases hid : e.1 = xapid
    · subst hid
      cases hdoc : getDoc e.1 idx with
      | none =>
        simp only [hdoc, Option.map_none]
        rfl
      | some d =>
        simp only [hdoc, getDoc_replaceDoc_self, Option.map_some', Option.some.injEq]
        have : invWrites slotStart (e :: inv) e.1 =
            entryWrites slotStart e.2 ++ invWrites slotStart inv e.1 := by
          unfold invWrites
          rw [List.filter_cons_of_pos (by simp), List.flatMap_cons]
        rw [this]
        unfold writeAll
        rw [List.foldl_append]
    · have hw : invWrites slotStart (e :: inv) xapid = invWrites slotStart inv xapid := by
        unfold invWrites
        rw [List.filter_cons_of_neg (by simp [hid])]
      rw [hw]
      cases hdoc : getDoc e.1 idx with
      | none => rfl
      | some d => rw [getDoc_replaceDoc_ne _ _ _ _ hid]

/-- The state of an `IndexerConnection` as far as cache application is
concerned: the slot allocation metadata (`_caches` / `num_cache_slots`), the
`_xappy_hascache` metadata flag, and the document index. -/
structure IConn where
  slots : SlotState
  hascache : Bool
  index : Index

/-- `XapianCacheManager.apply_cached_items` (`xapian_manager.py` lines
132-173): register the cache id in the slot metadata, mark
`_xappy_hascache`, and fold the inverted entries into the index.  `cid` is
`self.id`, `nq` is `self.num_cached_queries()` and `inv` is the output of
`self.iter_by_docid()` (unchanged between two calls when the cache's hit
lists are unchanged). -/
def apply_cached_items (cid : String) (nq : Nat) (inv : List (Nat × List (Nat × Nat)))
    (c : IConn) : IConn :=
  let slots := registerCache nq cid c.slots
  { slots := slots
    hascache := true
    index := applyInv (cache_manager_slot_start slots cid) inv c.index }

theorem slot_start_stable (cid : String) (nq : Nat) (s : SlotState) :
    cache_manager_slot_start (registerCache nq cid (registerCache nq cid s)) cid
      = cache_manager_slot_start (registerCache nq cid s) cid := by
  unfold cache_manager_slot_start
  rw [registerCache_caches_of_isSome _ _ _ (registerCache_lookup_isSome nq cid s)]

/-- C5: applying an unchanged cache twice (two consecutive
`apply_cached_items` calls with the same cache contents, hence the same
inversion output and query count) leaves every document's value-slot
contents identical to applying it once. -/
theorem apply_cached_items_idempotent (cid : String) (nq : Nat)
    (inv : List (Nat × List (Nat × Nat))) (c : IConn) (xapid slot : Nat) :
    Option.map (getValue slot)
        (getDoc xapid (apply_cached_items cid nq inv (apply_cached_items cid nq inv c)).index)
      = Option.map (getValue slot)
        (getDoc xapid (apply_cached_items cid nq inv c).index) := by
  have hL : (apply_cached_items cid nq inv (apply_cached_items cid nq inv c)).index
      = applyInv (cache_manager_slot_start
            (registerCache nq cid (registerCache nq cid c.slots)) cid) inv
          (applyInv (cache_manager_slot_start (registerCache nq cid c.slots) cid)
            inv c.index) := rfl
  have hR : (apply_cached_items cid nq inv c).index
      = applyInv (cache_manager_slot_start (registerCache nq cid c.slots) cid)
          inv c.index := rfl
  rw [hL, hR, slot_start_stable, getDoc_applyInv, getDoc_applyInv]
  cases getDoc xapid c.index with
  | none => rfl
  | some d =>
    simp only [Option.map_some']
    rw [getValue_writeAll_writeAll]

/-- Helper for C7: a write list never mentioning `slot` leaves no last write
for `slot`. -/
theorem lastWriteVal_eq_none (slot : Nat) (ws : List (Nat × SlotValue))
    (h : ∀ w ∈ ws, w.1 ≠ slot) : lastWriteVal slot ws = none := by
  induction ws with
  | nil => rfl
  | cons w ws ih =>
    rw [lastWriteVal, ih (fun w hw => h w (List.mem_cons_of_mem _ hw))]
    rw [if_neg (h w (List.mem_cons_self _ _))]

theorem lastWriteVal_entryWrites (slotStart : Nat) (items : List (Nat × Nat))
    (qr : Nat × Nat) (hmem : qr ∈ items) (hnd : (items.map Prod.fst).Nodup) :
    lastWriteVal (slotStart + qr.1) (entryWrites slotStart items)
      = some (persistedRank qr.2) := by
  induction items with
  | nil => cases hmem
  | cons i t ih =>
    rw [List.map_cons, List.nodup_cons] at hnd
    show lastWriteVal _ ((slotStart + i.1, persistedRank i.2) :: entryWrites slotStart t) = _
    rw [lastWriteVal]
    rcases List.mem_cons.mp hmem with he | ht
    · subst he
      rw [lastWriteVal_eq_none]
      · simp
      · intro w hw
        unfold entryWrites at hw
        rw [List.mem_map] at hw
        obtain ⟨x, hx, hxw⟩ := hw
        subst hxw
        intro hcontra
        exact hnd.1 (by
          have : x.1 = qr.1 := by omega
          rw [← this]
          exact List.mem_map_of_mem Prod.fst hx)
    · rw [ih ht hnd.2]

/-- Helper for C7: with distinct docids in the inversion output, the writes
aimed at the docid of entry `e` are exactly `e`'s own writes. -/
theorem invWrites_of_nodup (slotStart : Nat) (inv : List (Nat × List (Nat × Nat)))
    (e : Nat × List (Nat × Nat)) (he : e ∈ inv) (hnd : (inv.map Prod.fst).Nodup) :
    invWrites slotStart inv e.1 = entryWrites slotStart e.2 := by
  induction inv with
  | nil => cases he
  | cons a t ih =>
    rw [List.map_cons, List.nodup_cons] at hnd
    unfold invWrites
    rcases List.mem_cons.mp he with he' | ht
    · subst he'
      rw [List.filter_cons_of_pos (by simp)]
      have : t.filter (fun x => x.1 == e.1) = [] := by
        rw [List.filter_eq_nil_iff]
        intro x hx
        simp only [beq_iff_eq]
        intro hcontra
        exact hnd.1 (hcontra ▸ List.mem_map_of_mem Prod.fst hx)
      rw [this, List.flatMap_cons, List.flatMap_nil, List.append_nil]
    · have hne : (a.1 == e.1) = false := by
        rw [beq_eq_false_iff_ne]
        intro hcontra
        exact hnd.1 (hcontra ▸ List.mem_map_of_mem Prod.fst ht)
      rw [List.filter_cons, hne]
      simp only [Bool.false_eq_true, if_false]
      have := ih ht hnd.2
      unfold invWrites at this
      exact this

/-- C7: during `apply_cached_items`, a hit-listed docid absent from the index
is skipped silently (the `xapian.DocNotFoundError` branch simply continues):
no document appears under that docid afterwards, and every docid of the
inversion output that is present in the index still receives its slot
values — slot `slot_start + queryid` holds the persisted rank. -/
theorem absent_docid_skipped (cid : String) (nq : Nat)
    (inv : List (Nat × List (Nat × Nat))) (c : IConn) (dAbsent : Nat)
    (habsent : getDoc dAbsent c.index = none)
    (hinvnd : (inv.map Prod.fst).Nodup) :
    getDoc dAbsent (apply_cached_items cid nq inv c).index = none ∧
    (∀ e ∈ inv, ∀ d, getDoc e.1 c.index = some d →
      (e.2.map Prod.fst).Nodup →
      ∀ qr ∈ e.2,
        Option.map
          (getValue (cache_manager_slot_start (registerCache nq cid c.slots) cid + qr.1))
          (getDoc e.1 (apply_cached_items cid nq inv c).index)
        = some (some (persistedRank qr.2))) := by
  constructor
  · show getDoc dAbsent (applyInv _ inv c.index) = none
    rw [getDoc_applyInv, habsent]
    rfl
  · intro e he d hd hqnd qr hqr
    show Option.map _ (getDoc e.1 (applyInv _ inv c.index)) = _
    rw [getDoc_applyInv, hd]
    simp only [Option.map_some', Option.some.injEq]
    rw [getValue_writeAll, invWrites_of_nodup _ inv e he hinvnd,
      lastWriteVal_entryWrites _ _ qr hqr hqnd]

theorem absent_docid_skipped_witness :
    getDoc 9 (apply_cached_items "1" 2 [(9, [(0, 0)]), (4, [(0, 1)])]
      ⟨SlotState.init, false, [(4, [])]⟩).index = none ∧
    Option.map (getValue (cache_manager_slot_start
        (registerCache 2 "1" SlotState.init) "1" + 0))
      (getDoc 4 (apply_cached_items "1" 2 [(9, [(0, 0)]), (4, [(0, 1)])]
        ⟨SlotState.init, false, [(4, [])]⟩).index)
      = some (some (persistedRank 1)) := by
  have h := absent_docid_skipped "1" 2 [(9, [(0, 0)]), (4, [(0, 1)])]
    ⟨SlotState.init, false, [(4, [])]⟩ 9 (by decide) (by decide)
  exact ⟨h.1, h.2 (4, [(0, 1)]) (by decide) [] (by decide) (by decide) (0, 1) (by decide)⟩

/-! ## Document replacement with an attached cache manager -/

/-- The cached-slot copy loop of `IndexerConnection.replace`
(`indexerconnection.py` lines 404-411, executed when `self.cache_manager is
not None`): for every value of the old document whose slot number is at or
above `self._cache_manager_slot_start` (= 10000), copy it onto the prepared
replacement document with `add_value`. -/
def copyCacheValues (olddoc : Doc) (newdoc : Doc) : Doc :=
  olddoc.foldl
    (fun nd sv => if sv.1 < BASE_CACHE_SLOT then nd else addValue sv.1 sv.2 nd)
    newdoc

/-- The document stored by `IndexerConnection.replace` (`indexerconnection.py`
lines 398-416): the prepared replacement document, with — when a cache
manager is attached and the old document exists — the old document's
cache-region slot values copied onto it before the
`replace_document` call. -/
def replaceStoredDoc (cacheAttached : Bool) (old : Option Doc) (newPrepared : Doc) : Doc :=
  match cacheAttached, old with
  | true, some olddoc => copyCacheValues olddoc newPrepared
  | _, _ => newPrepared

theorem copyCacheValues_cons (sv : Nat × SlotValue) (t : Doc) (nd : Doc) :
    copyCacheValues (sv :: t) nd
      = copyCacheValues t
          (if sv.1 < BASE_CACHE_SLOT then nd else addValue sv.1 sv.2 nd) := by
  unfold copyCacheValues
  rw [List.foldl_cons]

theorem getValue_copyCacheValues_not_mem (slot : Nat) (od : Doc) :
    ∀ nd, slot ∉ od.map Prod.fst →
      getValue slot (copyCacheValues od nd) = getValue slot nd := by
  induction od with
  | nil => intro nd _; rfl
  | cons sv t ih =>
    intro nd hmem
    rw [List.map_cons, List.mem_cons, not_or] at hmem
    rw [copyCacheValues_cons, ih _ hmem.2]
    by_cases h : sv.1 < BASE_CACHE_SLOT
    · rw [if_pos h]
    · rw [if_neg h, getValue_addValue_ne _ _ _ _ (fun he => hmem.1 he.symm)]

/-- C6: with a cache manager attached, `IndexerConnection.replace` preserves
on the stored replacement document every cache-region slot value (slot at or
above `BASE_CACHE_SLOT` = 10000) held by the old document that the
replacement did not explicitly set. -/
theorem replace_preserves_cache_slots (od newPrepared : Doc) (slot : Nat) (v : SlotValue)
    (hnd : (od.map Prod.fst).Nodup)
    (hold : (slot, v) ∈ od)
    (hslot : BASE_CACHE_SLOT ≤ slot)
    (hnew : getValue slot newPrepared = none) :
    getValue slot (replaceStoredDoc true (some od) newPrepared) = some v := by
  show getValue slot (copyCacheValues od newPrepared) = some v
  clear hnew
  induction od generalizing newPrepared with
  | nil => cases hold
  | cons sv t ih =>
    rw [List.map_cons, List.nodup_cons] at hnd
    rw [copyCacheValues_cons]
    rcases List.mem_cons.mp hold with he | ht
    · have h1 : sv.1 = slot := by rw [← he]
      have h2 : sv.2 = v := by rw [← he]
      have hnotmem : slot ∉ t.map Prod.fst := h1 ▸ hnd.1
      rw [getValue_copyCacheValues_not_mem _ _ _ hnotmem,
        if_neg (by omega), h1, h2, getValue_addValue_self]
    · exact ih _ hnd.2 ht

theorem replace_preserves_cache_slots_witness :
    ((List.map Prod.fst [((10005 : Nat), [(7 : Nat)])]).Nodup ∧
      ((10005 : Nat), [(7 : Nat)]) ∈ [((10005 : Nat), [(7 : Nat)])] ∧
      BASE_CACHE_SLOT ≤ 10005 ∧
      getValue 10005 [(3, [(1 : Nat)])] = none) ∧
    getValue 10005 (replaceStoredDoc true (some [(10005, [7])]) [(3, [1])]) = some [7] :=
  ⟨⟨by decide, by decide, by decide, by decide⟩,
    replace_preserves_cache_slots [(10005, [7])] [(3, [1])] 10005 [7]
      (by decide) (by decide) (by decide) (by decide)⟩

/-! ## Invalidation across multiple caches

`XapianMultipleCachesManager.remove_cached_items` (`xapian_manager.py` lines
214-234) walks the document's values (visited in ascending slot order) with
a single index pointer into the sorted `(base_slot, upper_slot, cache)`
table, dispatching each value falling inside a cache's slot range to that
cache's `remove_hits`. -/

/-- One row of `_get_slots_info`'s sorted table:
`(base_slot, upper_slot, cache_id)`. -/
abbrev SlotsInfo := List (Nat × Nat × String)

/-- One `remove_hits` dispatch: the receiving cache id, the query id passed
(`slot_number - base_slot`), and the decoded rank of the single
`(rank, xapid)` pair passed. -/
abbrev RemoveCall := String × Nat × Nat

/-- The value loop of `XapianMultipleCachesManager.remove_cached_items`
(`xapian_manager.py` lines 218-234), transcribed statement by statement: on
`slot_number >= upper_slot` the pointer advances once (returning when it
runs off the table) and the newly fetched triple is used for the containment
test; a value outside the current range is skipped with `continue`; a value
inside it produces a `remove_hits` call with query id
`slot_number - base_slot` and the decoded rank. -/
def removeScan (si : SlotsInfo) : List (Nat × SlotValue) → Nat → List RemoveCall
  | [], _ => []
  | (slot, v) :: rest, index =>
    match si.get? index with
    | none => []
    | some (base, upper, cid) =>
      if upper ≤ slot then
        match si.get? (index + 1) with
        | none => []
        | some (base', upper', cid') =>
          if base' ≤ slot ∧ slot < upper' then
            (cid', slot - base', decodedRank v) :: removeScan si rest (index + 1)
          else
            removeScan si rest (index + 1)
      else
        if base ≤ slot ∧ slot < upper then
          (cid, slot - base, decodedRank v) :: removeScan si rest index
        else
          removeScan si rest index

/-- `XapianMultipleCachesManager.remove_cached_items` (`xapian_manager.py`
lines 214-234): returns the sequence of `remove_hits` dispatches made for a
document whose values are `doc` (ascending slot order).  `si` is the sorted
slot table from `_get_slots_info`; with no registered caches nothing is
dispatched. -/
def multi_remove_cached_items (si : SlotsInfo) (doc : List (Nat × SlotValue)) :
    List RemoveCall :=
  if si.isEmpty then [] else removeScan si doc 0

/-- C4 (refuting evaluation): with three registered caches of one query each
(slot ranges `[10000,10001)`, `[10001,10002)` and `[10002,10003)`), deleting
a document whose only cache-region value sits at slot 10002 — i.e. a
document present only in the third cache, at rank 0 of its query 0 —
produces NO `remove_hits` dispatch at all: the scan advances its pointer
only once past cache "A", lands on cache "B", finds slot 10002 outside
"B"'s range and skips the value, so cache "C" is never invoked, contradicting
the claim that every cache whose slot range contains one of the document's
values receives a `remove_hits` call. -/
theorem multi_remove_misses_third_cache :
    multi_remove_cached_items
      [(10000, 10001, "A"), (10001, 10002, "B"), (10002, 10003, "C")]
      [(10002, persistedRank 0)]
      = [] ∧
    decodedRank (persistedRank 0) = 0 := by
  constructor
  · rfl
  · rfl

/-! ## Search-time retry on concurrent modification

`SearchConnection.search` (`secore/searchconnection.py` lines 864-872) wraps
the match-set retrieval in `while True: try: mset = enq.get_mset(...); break
except DatabaseModifiedError: self.reopen()`.  Snapshots are numbered by how
many reopens have happened; `getMset k` is the outcome of `enq.get_mset`
against snapshot `k`, with `none` modelling a raised
`xapian.DatabaseModifiedError`. -/

/-- The retry loop of `SearchConnection.search`: at snapshot `k`, attempt the
retrieval; on success break with the match set, on `DatabaseModifiedError`
reopen (moving to snapshot `k + 1`) and retry.  The loop in the source has no
bound; the `fuel` argument only makes the recursion well-founded, and
exhausting it (`none`) models a run that never returned. -/
def searchRetry {M : Type} (getMset : Nat → Option M) : Nat → Nat → Option M
  | _, 0 => none
  | k, fuel + 1 =>
    match getMset k with
    | some m => some m
    | none => searchRetry getMset (k + 1) fuel

theorem searchRetry_shift {M : Type} (getMset : Nat → Option M) (j : Nat) :
    ∀ (k : Nat) (m : M), getMset (k + j) = some m →
      (∀ i < j, getMset (k + i) = none) →
      searchRetry getMset k (j + 1) = some m := by
  induction j with
  | zero =>
    intro k m hj _
    show (match getMset k with
          | some m => some m
          | none => searchRetry getMset (k + 1) 0) = some m
    rw [show getMset k = some m from hj]
  | succ j ih =>
    intro k m hj hbefore
    have h0 : getMset k = none := by
      have := hbefore 0 (Nat.succ_pos j)
      simpa using this
    show (match getMset k with
          | some m => some m
          | none => searchRetry getMset (k + 1) (j + 1)) = some m
    rw [h0]
    exact ih (k + 1) m (by rw [show k + 1 + j = k + (j + 1) by omega]; exact hj)
      (fun i hi => by
        rw [show k + 1 + i = k + (i + 1) by omega]
        exact hbefore (i + 1) (by omega))

/-- C9: `SearchConnection.search` never surfaces a `DatabaseModifiedError` to
its caller: whenever retrieving the match set raises it, the connection
reopens and retries, and as soon as some snapshot `j` yields a match set the
loop returns exactly that match set (after `j` reopens), never an error. -/
theorem search_retries_until_success {M : Type} (getMset : Nat → Option M)
    (j : Nat) (m : M) (hj : getMset j = some m)
    (hbefore : ∀ i < j, getMset i = none) :
    searchRetry getMset 0 (j + 1) = some m :=
  searchRetry_shift getMset j 0 m (by simpa using hj)
    (fun i hi => by rw [Nat.zero_add]; exact hbefore i hi)

theorem search_retries_until_success_witness :
    ((fun k => if k = 2 then some 99 else none) 2 = some 99) ∧
    searchRetry (fun k => if k = 2 then some 99 else none) 0 3 = some 99 :=
  ⟨by decide,
    search_retries_until_success (fun k => if k = 2 then some 99 else none) 2 99
      (by decide) (fun i hi => by interval_cases i <;> decide)⟩

/-! ## The self-inverting cache manager

`XapianSelfInvertingCacheManager` (`xapian_manager.py` lines 248-333) builds
a disposable Xapian database in which document `qid + 1` holds, for every
hit `(rank, docid)` of query `qid`, a term encoding `docid` with `rank` as
its wdf; `iter_by_docid` then walks that database's term list to produce the
`docid → [(queryid, rank)]` mapping. -/

/-- A cache's contents: the ordered hit list of each query id, indexed by
query id.  Modelled from the spec: `iter_queryids`/`get_hits` live in the
`generic.KeyValueStoreCacheManager` base class, which is not part of the
repository snapshot (spec §4.1); the `assert(newdocid == qid + 1)` in
`prepare_iter_by_docid` pins `iter_queryids` to dense ascending ids
0, 1, 2, …, so the store is a list of hit lists indexed by query id. -/
abbrev Cache := List (List Nat)

/-- Hex digits (most significant first) of a natural number, as `'%x' % n`
produces them; structurally recursive on a fuel argument. -/
def hexDigitsAux : Nat → Nat → List Nat
  | 0, n => [n]
  | fuel + 1, n => if n < 16 then [n] else hexDigitsAux fuel (n / 16) ++ [n % 16]

/-- The hex-digit string `'%x' % n`, with digits as their numeric values. -/
def hexDigits (n : Nat) : List Nat := hexDigitsAux n n

/-- The value of a most-significant-first hex-digit string, as
`int(s, 16)` computes it. -/
def hexVal (l : List Nat) : Nat := l.foldl (fun acc d => 16 * acc + d) 0

/-- The term stored for a docid by `prepare_iter_by_docid`
(`xapian_manager.py` lines 286-287): `term = '%x' % docid` prefixed with
`'%x' % len(term)`, characters modelled by their digit values. -/
def encodeTerm (d : Nat) : List Nat :=
  hexDigits (hexDigits d).length ++ hexDigits d

/-- A Xapian document of the inversion database: its term list with
within-document frequencies. -/
abbrev XDoc := List (List Nat × Nat)

/-- `xapian.Document.add_term(term, wdfinc)`: increase the wdf of an existing
term, or append the term with wdf `wdfinc`. -/
def addTerm (t : List Nat) (w : Nat) : XDoc → XDoc
  | [] => [(t, w)]
  | (u, w') :: rest =>
    if u = t then (u, w' + w) :: rest else (u, w') :: addTerm t w rest

/-- The wdf of a term in a document, if the document carries the term. -/
def lookupTerm (t : List Nat) : XDoc → Option Nat
  | [] => none
  | (u, w) :: rest => if u = t then some w else lookupTerm t rest

/-- The document built for one query by `prepare_iter_by_docid`
(`xapian_manager.py` lines 281-288): for each `(rank, docid)` of
`enumerate(self.get_hits(qid))`, add the docid's term with the rank as
wdf. -/
def invDoc (hits : List Nat) : XDoc :=
  hits.enum.foldl (fun doc rd => addTerm (encodeTerm rd.2) rd.1 doc) []

/-- The inversion database: Xapian document id (`qid + 1`) paired with the
document, in ascending id order as `add_document` assigns them. -/
abbrev InvDB := List (Nat × XDoc)

/-- `prepare_iter_by_docid` (`xapian_manager.py` lines 258-296): one
document per query id, stored under Xapian docid `qid + 1` (the asserted
`newdocid == qid + 1`). -/
def prepareInvDB (c : Cache) : InvDB :=
  c.enum.map (fun qh => (qh.1 + 1, invDoc qh.2))

/-- Lexicographic (byte-string) order on terms, as the term list of a Xapian
database is ordered. -/
def termLe : List Nat → List Nat → Bool
  | [], _ => true
  | _ :: _, [] => false
  | x :: xs, y :: ys => if x < y then true else if y < x then false else termLe xs ys

/-- Insert a term into a lexicographically sorted term list. -/
def insertTerm (t : List Nat) : List (List Nat) → List (List Nat)
  | [] => [t]
  | u :: us => if termLe t u then t :: u :: us else u :: insertTerm t us

/-- Sort a term list lexicographically. -/
def sortTerms (l : List (List Nat)) : List (List Nat) :=
  l.foldr insertTerm []

/-- `invdb.allterms()`: the distinct terms of the database, in lexicographic
order. -/
def allterms (db : InvDB) : List (List Nat) :=
  sortTerms ((db.flatMap (fun e => e.2.map Prod.fst)).dedup)

/-- `invdb.postlist(term)`: the `(document id, wdf)` postings of a term, in
ascending document id order (the database is built in that order). -/
def postlist (db : InvDB) (t : List Nat) : List (Nat × Nat) :=
  db.filterMap (fun e => (lookupTerm t e.2).map (fun w => (e.1, w)))

/-- `XapianSelfInvertingCacheManager.iter_by_docid` (`xapian_manager.py`
lines 304-333): for each term of the inversion database, decode the docid
with `int(item.term[1:], 16)` and pair it with
`tuple((item.docid - 1, item.wdf) for item in invdb.postlist(item.term))`. -/
def iter_by_docid (c : Cache) : List (Nat × List (Nat × Nat)) :=
  (allterms (prepareInvDB c)).map (fun t =>
    (hexVal (t.drop 1),
     (postlist (prepareInvDB c) t).map (fun p => (p.1 - 1, p.2))))

/-- Modelled from the spec: the naive in-memory inverter of spec §4.3 (the
default `iter_by_docid` of `generic.KeyValueStoreCacheManager`, not in the
repository snapshot) — "build an in-memory map from docid to list of
`(query_id, rank)` by scanning every HitList of every QueryId once".  This
is the per-document entry of that map: every `(query_id, rank)` with
`hits query_id` holding `d` at position `rank`, in query id order. -/
def naiveEntry (c : Cache) (d : Nat) : List (Nat × Nat) :=
  c.enum.flatMap (fun qh =>
    qh.2.enum.filterMap (fun rd => if rd.2 = d then some (qh.1, rd.1) else none))

theorem hexVal_append_digit (l : List Nat) (d : Nat) :
    hexVal (l ++ [d]) = 16 * hexVal l + d := by
  unfold hexVal
  rw [List.foldl_append]
  rfl

theorem hexVal_hexDigitsAux (fuel : Nat) :
    ∀ n, n ≤ fuel → hexVal (hexDigitsAux fuel n) = n := by
  induction fuel with
  | zero =>
    intro n hn
    interval_cases n
    rfl
  | succ fuel ih =>
    intro n hn
    rw [hexDigitsAux]
    by_cases h : n < 16
    · rw [if_pos h]
      show 16 * 0 + n = n
      omega
    · rw [if_neg h, hexVal_append_digit, ih (n / 16) (by omega)]
      omega

theorem hexVal_hexDigits (n : Nat) : hexVal (hexDigits n) = n :=
  hexVal_hexDigitsAux n n (Nat.le_refl n)

theorem hexDigitsAux_length_le (k : Nat) :
    ∀ fuel n, n ≤ fuel → n < 16 ^ (k + 1) → (hexDigitsAux fuel n).length ≤ k + 1 := by
  induction k with
  | zero =>
    intro fuel n hn hk
    cases fuel with
    | zero => simp [hexDigitsAux]
    | succ fuel =>
      rw [hexDigitsAux, if_pos (by simpa using hk)]
      simp
  | succ k ih =>
    intro fuel n hn hk
    cases fuel with
    | zero => simp [hexDigitsAux]
    | succ fuel =>
      rw [hexDigitsAux]
      by_cases h : n < 16
      · rw [if_pos h]; simp
      · rw [if_neg h, List.length_append]
        have hdiv : n / 16 < 16 ^ (k + 1) := by
          rw [Nat.div_lt_iff_lt_mul (by norm_num)]
          calc n < 16 ^ (k + 1 + 1) := hk
            _ = 16 ^ (k + 1) * 16 := by ring
        have := ih fuel (n / 16) (by omega) hdiv
        simp only [List.length_singleton]
        omega

theorem hexDigits_length_le (n : Nat) (h : n < 16 ^ 15) :
    (hexDigits n).length ≤ 15 :=
  hexDigitsAux_length_le 14 n n (Nat.le_refl n) h

theorem hexDigits_small (n : Nat) (h : n < 16) : hexDigits n = [n] := by
  cases n with
  | zero => rfl
  | succ m =>
    show hexDigitsAux (m + 1) (m + 1) = [m + 1]
    rw [hexDigitsAux, if_pos h]

theorem encodeTerm_drop_one (d : Nat) (h : d < 16 ^ 15) :
    (encodeTerm d).drop 1 = hexDigits d := by
  unfold encodeTerm
  rw [hexDigits_small _ (by have := hexDigits_length_le d h; omega)]
  rfl

theorem decode_encodeTerm (d : Nat) (h : d < 16 ^ 15) :
    hexVal ((encodeTerm d).drop 1) = d := by
  rw [encodeTerm_drop_one d h, hexVal_hexDigits]

theorem encodeTerm_inj (d₁ d₂ : Nat) (h₁ : d₁ < 16 ^ 15) (h₂ : d₂ < 16 ^ 15)
    (he : encodeTerm d₁ = encodeTerm d₂) : d₁ = d₂ := by
  have := decode_encodeTerm d₁ h₁
  rw [he, decode_encodeTerm d₂ h₂] at this
  omega

theorem addTerm_not_mem (t : List Nat) (w : Nat) :
    ∀ doc : XDoc, t ∉ doc.map Prod.fst → addTerm t w doc = doc ++ [(t, w)] := by
  intro doc
  induction doc with
  | nil => intro _; rfl
  | cons p rest ih =>
    intro h
    rw [List.map_cons, List.mem_cons, not_or] at h
    obtain ⟨u, w'⟩ := p
    rw [addTerm, if_neg (fun he => h.1 he.symm), List.cons_append, ih h.2]

theorem lookupTerm_eq_none_iff (t : List Nat) :
    ∀ doc : XDoc, lookupTerm t doc = none ↔ t ∉ doc.map Prod.fst := by
  intro doc
  induction doc with
  | nil => simp [lookupTerm]
  | cons p rest ih =>
    obtain ⟨u, w⟩ := p
    rw [lookupTerm]
    by_cases h : u = t
    · subst h
      simp
    · rw [if_neg h, List.map_cons, List.mem_cons, ih]
      constructor
      · intro hn hc
        rcases hc with hc | hc
        · exact h hc.symm
        · exact hn hc
      · intro hn hm
        exact hn (Or.inr hm)

/-- With all encoded terms distinct and fresh with respect to the
accumulator, the `add_term` fold of `prepare_iter_by_docid` just appends
one `(term, wdf)` pair per hit. -/
theorem foldl_addTerm_fresh (ps : List (Nat × Nat)) :
    ∀ acc : XDoc,
      (ps.map (fun rd => encodeTerm rd.2)).Nodup →
      (∀ rd ∈ ps, encodeTerm rd.2 ∉ acc.map Prod.fst) →
      ps.foldl (fun doc rd => addTerm (encodeTerm rd.2) rd.1 doc) acc
        = acc ++ ps.map (fun rd => (encodeTerm rd.2, rd.1)) := by
  induction ps with
  | nil => intro acc _ _; simp
  | cons rd t ih =>
    intro acc hnd hfresh
    rw [List.map_cons, List.nodup_cons] at hnd
    rw [List.foldl_cons,
      addTerm_not_mem _ _ _ (hfresh rd (List.mem_cons_self _ _)),
      ih _ hnd.2 ?fresh, List.map_cons, List.append_assoc, List.singleton_append]
    case fresh =>
      intro rd' hrd'
      rw [List.map_append, List.mem_append, not_or]
      refine ⟨hfresh rd' (List.mem_cons_of_mem _ hrd'), ?_⟩
      intro hc
      rw [List.map_singleton, List.mem_singleton] at hc
      have hc' : encodeTerm rd'.2 = encodeTerm rd.2 := hc
      exact hnd.1 (hc' ▸ List.mem_map_of_mem (fun rd => encodeTerm rd.2) hrd')

/-- For a duplicate-free hit list of in-range docids, the inversion document
is literally one `(encoded docid, rank)` pair per hit. -/
theorem invDoc_eq (hits : List Nat) (hnd : hits.Nodup)
    (hb : ∀ d ∈ hits, d < 16 ^ 15) :
    invDoc hits = hits.enum.map (fun rd => (encodeTerm rd.2, rd.1)) := by
  unfold invDoc
  rw [foldl_addTerm_fresh _ _ ?nd (by simp)]
  case nd =>
    have : hits.enum.map (fun rd => encodeTerm rd.2)
        = hits.map encodeTerm := by
      rw [show (fun rd : Nat × Nat => encodeTerm rd.2)
            = encodeTerm ∘ Prod.snd from rfl, ← List.map_map, List.enum_map_snd]
    rw [this]
    exact hnd.map_on (fun x hx y hy he => encodeTerm_inj x y (hb x hx) (hb y hy) he)
  simp

/-- Per-hit-list correspondence: scanning `(rank, docid)` pairs for docid `d`
finds exactly the posting the inversion document stores for `d`'s term. -/
theorem filterMap_corr_lookupTerm (d : Nat) (hd : d < 16 ^ 15) (q : Nat) :
    ∀ ps : List (Nat × Nat),
      (∀ rd ∈ ps, rd.2 < 16 ^ 15) →
      (ps.map (fun rd => encodeTerm rd.2)).Nodup →
      ps.filterMap (fun rd => if rd.2 = d then some (q, rd.1) else none)
        = (match lookupTerm (encodeTerm d)
              (ps.map (fun rd => (encodeTerm rd.2, rd.1))) with
           | some w => [(q, w)]
           | none => []) := by
  intro ps
  induction ps with
  | nil => intro _ _; rfl
  | cons rd t ih =>
    intro hb hnd
    rw [List.map_cons, List.nodup_cons] at hnd
    rw [List.filterMap_cons, List.map_cons]
    simp only [lookupTerm]
    by_cases h : rd.2 = d
    · have hL : (if rd.2 = d then some (q, rd.1) else none) = some (q, rd.1) := if_pos h
      have hR : (if encodeTerm rd.2 = encodeTerm d
            then some rd.1
            else lookupTerm (encodeTerm d) (t.map (fun rd => (encodeTerm rd.2, rd.1))))
          = some rd.1 := if_pos (by rw [h])
      have htail : t.filterMap (fun rd => if rd.2 = d then some (q, rd.1) else none)
          = [] := by
        rw [List.filterMap_eq_nil_iff]
        intro rd' hrd'
        rw [if_neg]
        intro hc
        apply hnd.1
        have hc' : encodeTerm rd'.2 = encodeTerm rd.2 := by rw [hc, h]
        exact hc' ▸ List.mem_map_of_mem (fun rd => encodeTerm rd.2) hrd'
      rw [hL, hR, htail]
    · have hne : encodeTerm rd.2 ≠ encodeTerm d := by
        intro hc
        exact h (encodeTerm_inj rd.2 d (hb rd (List.mem_cons_self _ _)) hd hc)
      have hL : (if rd.2 = d then some (q, rd.1) else none) = none := if_neg h
      have hR : (if encodeTerm rd.2 = encodeTerm d
            then some rd.1
            else lookupTerm (encodeTerm d) (t.map (fun rd => (encodeTerm rd.2, rd.1))))
          = lookupTerm (encodeTerm d) (t.map (fun rd => (encodeTerm rd.2, rd.1))) :=
        if_neg hne
      rw [hL, hR]
      exact ih (fun rd' hrd' => hb rd' (List.mem_cons_of_mem _ hrd')) hnd.2

theorem snd_mem_of_mem_enum {α : Type} {rd : Nat × α} {l : List α}
    (h : rd ∈ l.enum) : rd.2 ∈ l := by
  have := List.mem_map_of_mem Prod.snd h
  rwa [List.enum_map_snd] at this

theorem enum_encodeTerm_nodup (hits : List Nat) (hnd : hits.Nodup)
    (hb : ∀ d ∈ hits, d < 16 ^ 15) :
    (hits.enum.map (fun rd => encodeTerm rd.2)).Nodup := by
  have : hits.enum.map (fun rd => encodeTerm rd.2) = hits.map encodeTerm := by
    rw [show (fun rd : Nat × Nat => encodeTerm rd.2)
          = encodeTerm ∘ Prod.snd from rfl, ← List.map_map, List.enum_map_snd]
  rw [this]
  exact hnd.map_on (fun x hx y hy he => encodeTerm_inj x y (hb x hx) (hb y hy) he)

/-- The posting list of `d`'s term in the inversion database is exactly the
naive scan's entry for `d`, with each query id shifted to its Xapian document
id `qid + 1`. -/
theorem postlist_eq_naive (d : Nat) (hd : d < 16 ^ 15) :
    ∀ qhs : List (Nat × List Nat),
      (∀ qh ∈ qhs, qh.2.Nodup) →
      (∀ qh ∈ qhs, ∀ x ∈ qh.2, x < 16 ^ 15) →
      (qhs.map (fun qh => (qh.1 + 1, invDoc qh.2))).filterMap
          (fun e => (lookupTerm (encodeTerm d) e.2).map (fun w => (e.1, w)))
        = qhs.flatMap (fun qh =>
            (qh.2.enum.filterMap
              (fun rd => if rd.2 = d then some (qh.1, rd.1) else none)).map
              (fun qr => (qr.1 + 1, qr.2))) := by
  intro qhs
  induction qhs with
  | nil => intro _ _; rfl
  | cons qh t ih =>
    intro hnd hb
    rw [List.map_cons, List.filterMap_cons, List.flatMap_cons]
    have hinv := invDoc_eq qh.2 (hnd qh (List.mem_cons_self _ _))
      (hb qh (List.mem_cons_self _ _))
    have hcorr := filterMap_corr_lookupTerm d hd qh.1 qh.2.enum
      (fun rd hrd => hb qh (List.mem_cons_self _ _) rd.2 (snd_mem_of_mem_enum hrd))
      (enum_encodeTerm_nodup qh.2 (hnd qh (List.mem_cons_self _ _))
        (hb qh (List.mem_cons_self _ _)))
    have ihx := ih (fun qh' h' => hnd qh' (List.mem_cons_of_mem _ h'))
      (fun qh' h' => hb qh' (List.mem_cons_of_mem _ h'))
    dsimp only
    rw [hinv, hcorr]
    cases hlk : lookupTerm (encodeTerm d)
        (qh.2.enum.map (fun rd => (encodeTerm rd.2, rd.1))) with
    | none =>
      simp only [Option.map_none', List.map_nil, List.nil_append]
      exact ihx
    | some w =>
      simp only [Option.map_some', List.map_singleton, List.singleton_append]
      rw [ihx]

/-- `insertTerm` permutes a cons. -/
theorem insertTerm_perm (t : List Nat) :
    ∀ l : List (List Nat), (insertTerm t l).Perm (t :: l) := by
  intro l
  induction l with
  | nil => exact List.Perm.refl _
  | cons u us ih =>
    rw [insertTerm]
    by_cases h : termLe t u
    · rw [if_pos h]
    · rw [if_neg h]
      exact ((ih.cons u).trans (List.Perm.swap t u us)).symm.symm

/-- `sortTerms` permutes its input. -/
theorem sortTerms_perm (l : List (List Nat)) : (sortTerms l).Perm l := by
  induction l with
  | nil => exact List.Perm.refl _
  | cons u us ih =>
    show (insertTerm u (sortTerms us)).Perm (u :: us)
    exact (insertTerm_perm u (sortTerms us)).trans (ih.cons u)

theorem mem_allterms_iff (db : InvDB) (t : List Nat) :
    t ∈ allterms db ↔ ∃ e ∈ db, t ∈ e.2.map Prod.fst := by
  unfold allterms
  rw [(sortTerms_perm _).mem_iff, List.mem_dedup, List.mem_flatMap]

theorem allterms_nodup (db : InvDB) : (allterms db).Nodup := by
  unfold allterms
  rw [(sortTerms_perm _).nodup_iff]
  exact List.nodup_dedup _

theorem enum_map_encodeTerm (hits : List Nat) :
    hits.enum.map (fun rd => encodeTerm rd.2) = hits.map encodeTerm := by
  rw [show (fun rd : Nat × Nat => encodeTerm rd.2)
        = encodeTerm ∘ Prod.snd from rfl, ← List.map_map, List.enum_map_snd]

theorem invDoc_map_fst (hits : List Nat) (hnd : hits.Nodup)
    (hb : ∀ d ∈ hits, d < 16 ^ 15) :
    (invDoc hits).map Prod.fst = hits.map encodeTerm := by
  rw [invDoc_eq hits hnd hb, List.map_map]
  exact enum_map_encodeTerm hits

theorem mem_iff_exists_enum {α : Type} (l : List α) (x : α) :
    x ∈ l ↔ ∃ i, (i, x) ∈ l.enum := by
  simp only [List.mk_mem_enum_iff_getElem?]
  rw [List.mem_iff_getElem?]

theorem mem_allterms_prep (c : Cache) (hnd : ∀ h ∈ c, h.Nodup)
    (hb : ∀ h ∈ c, ∀ d ∈ h, d < 16 ^ 15) (t : List Nat) :
    t ∈ allterms (prepareInvDB c)
      ↔ ∃ x, (∃ qh ∈ c.enum, x ∈ qh.2) ∧ t = encodeTerm x := by
  rw [mem_allterms_iff]
  constructor
  · rintro ⟨e, he, ht⟩
    unfold prepareInvDB at he
    rw [List.mem_map] at he
    obtain ⟨qh, hqh, hfe⟩ := he
    have hc : qh.2 ∈ c := snd_mem_of_mem_enum hqh
    rw [← hfe] at ht
    have : ((qh.1 + 1, invDoc qh.2) : Nat × XDoc).2 = invDoc qh.2 := rfl
    rw [this, invDoc_map_fst qh.2 (hnd _ hc) (hb _ hc), List.mem_map] at ht
    obtain ⟨x, hx, hxt⟩ := ht
    exact ⟨x, ⟨qh, hqh, hx⟩, hxt.symm⟩
  · rintro ⟨x, ⟨qh, hqh, hx⟩, ht⟩
    have hc : qh.2 ∈ c := snd_mem_of_mem_enum hqh
    refine ⟨(qh.1 + 1, invDoc qh.2), ?_, ?_⟩
    · unfold prepareInvDB
      rw [List.mem_map]
      exact ⟨qh, hqh, rfl⟩
    · show t ∈ (invDoc qh.2).map Prod.fst
      rw [invDoc_map_fst qh.2 (hnd _ hc) (hb _ hc), List.mem_map]
      exact ⟨x, hx, ht.symm⟩

theorem naiveEntry_ne_nil_iff (c : Cache) (d : Nat) :
    naiveEntry c d ≠ [] ↔ ∃ qh ∈ c.enum, d ∈ qh.2 := by
  unfold naiveEntry
  rw [Ne, List.flatMap_eq_nil_iff]
  constructor
  · intro h
    by_contra hn
    push_neg at hn
    apply h
    intro qh hqh
    rw [List.filterMap_eq_nil_iff]
    intro rd hrd
    rw [if_neg]
    intro hc
    exact hn qh hqh (hc ▸ snd_mem_of_mem_enum hrd)
  · rintro ⟨qh, hqh, hd⟩ hall
    have := hall qh hqh
    rw [List.filterMap_eq_nil_iff] at this
    obtain ⟨i, hi⟩ := (mem_iff_exists_enum qh.2 d).mp hd
    have := this (i, d) hi
    rw [if_pos rfl] at this
    cases this

theorem map_shift_unshift (l : List (Nat × Nat)) :
    ((l.map (fun qr => (qr.1 + 1, qr.2))).map (fun p => (p.1 - 1, p.2))) = l := by
  rw [List.map_map]
  induction l with
  | nil => rfl
  | cons x t ih =>
    rw [List.map_cons, ih]
    rfl

theorem postlist_prep (c : Cache) (d : Nat) (hd : d < 16 ^ 15)
    (hnd : ∀ h ∈ c, h.Nodup) (hb : ∀ h ∈ c, ∀ x ∈ h, x < 16 ^ 15) :
    postlist (prepareInvDB c) (encodeTerm d)
      = (naiveEntry c d).map (fun qr => (qr.1 + 1, qr.2)) := by
  unfold postlist prepareInvDB naiveEntry
  rw [List.map_flatMap]
  exact postlist_eq_naive d hd c.enum
    (fun qh hqh => hnd qh.2 (snd_mem_of_mem_enum hqh))
    (fun qh hqh => hb qh.2 (snd_mem_of_mem_enum hqh))

/-- C2: for every cache store state whose hit lists are duplicate-free and
whose docids are valid Xapian document ids (below `16 ^ 15`, the range on
which the length-prefixed hex term encoding is decodable; actual Xapian ids
are 32-bit), the on-disk inversion `iter_by_docid` of
`XapianSelfInvertingCacheManager` yields exactly the pairs
`(docid, naiveEntry docid)` of the naive in-memory inversion — the same set
of `(docid, [(query_id, rank)])` pairs, each docid grouped once with its
full entry, the entry listing `(query_id, rank)` in the naive scan's query
order. -/
theorem iter_by_docid_refines_naive (c : Cache)
    (hnd : ∀ h ∈ c, h.Nodup)
    (hb : ∀ h ∈ c, ∀ d ∈ h, d < 16 ^ 15) :
    (∀ d l, (d, l) ∈ iter_by_docid c ↔ (naiveEntry c d ≠ [] ∧ l = naiveEntry c d)) ∧
    ((iter_by_docid c).map Prod.fst).Nodup := by
  constructor
  · intro d l
    constructor
    · intro hmem
      unfold iter_by_docid at hmem
      rw [List.mem_map] at hmem
      obtain ⟨t, ht, heq⟩ := hmem
      obtain ⟨x, ⟨qh, hqh, hx⟩, htx⟩ := (mem_allterms_prep c hnd hb t).mp ht
      have hxb : x < 16 ^ 15 := hb qh.2 (snd_mem_of_mem_enum hqh) x hx
      subst htx
      have h1 : hexVal ((encodeTerm x).drop 1) = d := congrArg Prod.fst heq
      rw [decode_encodeTerm x hxb] at h1
      subst h1
      have hl : l = naiveEntry c x := by
        have hsnd : (postlist (prepareInvDB c) (encodeTerm x)).map
            (fun p => (p.1 - 1, p.2)) = l := congrArg Prod.snd heq
        rw [← hsnd, postlist_prep c x hxb hnd hb, map_shift_unshift]
      refine ⟨?_, hl⟩
      exact (naiveEntry_ne_nil_iff c x).mpr ⟨qh, hqh, hx⟩
    · rintro ⟨hne, hl⟩
      obtain ⟨qh, hqh, hd⟩ := (naiveEntry_ne_nil_iff c d).mp hne
      have hdb : d < 16 ^ 15 := hb qh.2 (snd_mem_of_mem_enum hqh) d hd
      unfold iter_by_docid
      rw [List.mem_map]
      refine ⟨encodeTerm d, ?_, ?_⟩
      · exact (mem_allterms_prep c hnd hb _).mpr ⟨d, ⟨qh, hqh, hd⟩, rfl⟩
      · rw [decode_encodeTerm d hdb, postlist_prep c d hdb hnd hb,
          map_shift_unshift, ← hl]
  · unfold iter_by_docid
    rw [List.map_map]
    apply List.Nodup.map_on ?inj (allterms_nodup _)
    case inj =>
      intro t₁ h₁ t₂ h₂ he
      obtain ⟨x₁, ⟨qh₁, hqh₁, hx₁⟩, ht₁⟩ := (mem_allterms_prep c hnd hb t₁).mp h₁
      obtain ⟨x₂, ⟨qh₂, hqh₂, hx₂⟩, ht₂⟩ := (mem_allterms_prep c hnd hb t₂).mp h₂
      have hb₁ : x₁ < 16 ^ 15 := hb qh₁.2 (snd_mem_of_mem_enum hqh₁) x₁ hx₁
      have hb₂ : x₂ < 16 ^ 15 := hb qh₂.2 (snd_mem_of_mem_enum hqh₂) x₂ hx₂
      subst ht₁
      subst ht₂
      have he' : hexVal ((encodeTerm x₁).drop 1)
          = hexVal ((encodeTerm x₂).drop 1) := he
      rw [decode_encodeTerm x₁ hb₁, decode_encodeTerm x₂ hb₂] at he'
      rw [he']

theorem iter_by_docid_refines_naive_witness :
    ((4 : Nat), [((0 : Nat), (0 : Nat)), (1, 1)]) ∈ iter_by_docid [[4, 2], [2, 4]] :=
  ((iter_by_docid_refines_naive [[4, 2], [2, 4]] (by decide) (by decide)).1
    4 [(0, 0), (1, 1)]).mpr ⟨by decide, by decide⟩

/-! ## Invalidation of the auxiliary inversion structure

`XapianCacheManager.__setitem__`/`__delitem__` (`xapian_manager.py` lines
71-85) open the store for writing (creating it on first write), store the
value, and call `invalidate_iter_by_docid`;
`XapianSelfInvertingCacheManager` implements the latter (lines 298-302) by
deleting the on-disk inversion database, and
`prepare_iter_by_docid`/`iter_by_docid` (lines 258-333) rebuild it on demand
before reading. -/

/-- The mutable state of a `XapianSelfInvertingCacheManager`: the hit lists
currently held by the key/value store (see `Cache`), whether the store
exists on disk (`os.path.exists(self.dbpath)`), the `self.inverted` flag,
and the on-disk inversion database when present. -/
structure CMState where
  cache : Cache
  created : Bool
  inverted : Bool
  invdb : Option InvDB

/-- A freshly constructed manager over a store that was never written. -/
def CMState.start : CMState := ⟨[], false, false, none⟩

/-- Store a hit list under a query id (the hit-list view of the store's
`__setitem__` write; absent ids hold the empty hit list). -/
def setHits (q : Nat) (hl : List Nat) (c : Cache) : Cache :=
  if q < c.length then c.set q hl
  else c ++ List.replicate (q - c.length) [] ++ [hl]

/-- `XapianSelfInvertingCacheManager.invalidate_iter_by_docid`
(`xapian_manager.py` lines 298-302): when the inversion structure is
current, delete it from disk and lower the flag; otherwise do nothing. -/
def invalidate_iter_by_docid (s : CMState) : CMState :=
  if s.inverted then { s with inverted := false, invdb := none } else s

/-- `XapianCacheManager.__setitem__` (`xapian_manager.py` lines 71-77): open
the store writable (creating it), store the value, and invalidate the
inversion structure. -/
def setitem (q : Nat) (hl : List Nat) (s : CMState) : CMState :=
  invalidate_iter_by_docid { s with cache := setHits q hl s.cache, created := true }

/-- `XapianCacheManager.__delitem__` (`xapian_manager.py` lines 79-85):
store the empty value for the key and invalidate the inversion
structure. -/
def delitem (q : Nat) (s : CMState) : CMState :=
  invalidate_iter_by_docid { s with cache := setHits q [] s.cache, created := true }

/-- `XapianSelfInvertingCacheManager.prepare_iter_by_docid`
(`xapian_manager.py` lines 258-296): return at once when the structure is
current; mark an uncreated store as inverted without building anything;
otherwise rebuild the inversion database from the current hit lists. -/
def cm_prepare_iter_by_docid (s : CMState) : CMState :=
  if s.inverted then s
  else if s.created = false then { s with inverted := true }
  else { s with inverted := true, invdb := some (prepareInvDB s.cache) }

/-- The inversion structure `iter_by_docid` consults (`xapian_manager.py`
lines 317-322): after `prepare_iter_by_docid`, the on-disk inversion
database — or the empty database when the store does not exist — together
with the state the call leaves behind. -/
def iter_consulted (s : CMState) : CMState × InvDB :=
  let t := cm_prepare_iter_by_docid s
  (t, if t.created then t.invdb.getD [] else [])

/-- An operation against the manager: a store write, a store delete, or an
`iter_by_docid` read (which may rebuild the inversion structure). -/
inductive CMOp where
  | set (q : Nat) (hl : List Nat)
  | del (q : Nat)
  | iter

/-- Apply one operation to the state. -/
def CMState.step (s : CMState) : CMOp → CMState
  | .set q hl => setitem q hl s
  | .del q => delitem q s
  | .iter => (iter_consulted s).1

/-- Run a sequence of operations from the fresh state. -/
def runOps (ops : List CMOp) : CMState :=
  ops.foldl CMState.step CMState.start

/-- Reachable-state invariant: an uncreated store is empty; a raised
`inverted` flag over a created store means the on-disk structure is exactly
the inversion of the current hit lists; a lowered flag means the structure
is absent. -/
def cmInv (s : CMState) : Prop :=
  (s.created = false → s.cache = []) ∧
  (s.inverted = true → s.created = true → s.invdb = some (prepareInvDB s.cache)) ∧
  (s.inverted = false → s.invdb = none)

theorem cmInv_start : cmInv CMState.start := by
  refine ⟨fun _ => rfl, fun h _ => ?_, fun _ => rfl⟩
  cases h

theorem cmInv_invalidate_mutation (s : CMState) (c' : Cache) (h : cmInv s) :
    cmInv (invalidate_iter_by_docid { s with cache := c', created := true }) ∧
    (invalidate_iter_by_docid { s with cache := c', created := true }).inverted = false ∧
    (invalidate_iter_by_docid { s with cache := c', created := true }).invdb = none := by
  obtain ⟨h1, h2, h3⟩ := h
  unfold invalidate_iter_by_docid
  by_cases hi : s.inverted
  · rw [if_pos hi]
    refine ⟨⟨?_, ?_, ?_⟩, rfl, rfl⟩
    · intro hc
      have hc' : true = false := hc
      cases hc'
    · intro hinv _
      have hinv' : false = true := hinv
      cases hinv'
    · intro _
      rfl
  · rw [if_neg hi]
    have hif : s.inverted = false := by simpa using hi
    have hnone := h3 hif
    refine ⟨⟨?_, ?_, ?_⟩, hif, hnone⟩
    · intro hc
      have hc' : true = false := hc
      cases hc'
    · intro hinv _
      exact absurd hinv hi
    · intro _
      exact hnone

theorem cmInv_prepare (s : CMState) (h : cmInv s) :
    cmInv (cm_prepare_iter_by_docid s) := by
  obtain ⟨h1, h2, h3⟩ := h
  unfold cm_prepare_iter_by_docid
  by_cases hi : s.inverted
  · rw [if_pos hi]
    exact ⟨h1, h2, h3⟩
  · rw [if_neg hi]
    by_cases hc : s.created = false
    · rw [if_pos hc]
      refine ⟨?_, ?_, ?_⟩
      · intro _
        exact h1 hc
      · intro _ hcr
        have hcr' : s.created = true := hcr
        rw [hc] at hcr'
        cases hcr'
      · intro hf
        have hf' : true = false := hf
        cases hf'
    · rw [if_neg hc]
      refine ⟨?_, ?_, ?_⟩
      · intro hcf
        exact absurd hcf hc
      · intro _ _
        rfl
      · intro hf
        have hf' : true = false := hf
        cases hf'

theorem cmInv_step (s : CMState) (op : CMOp) (h : cmInv s) :
    cmInv (s.step op) := by
  cases op with
  | set q hl => exact (cmInv_invalidate_mutation s _ h).1
  | del q => exact (cmInv_invalidate_mutation s _ h).1
  | iter => exact cmInv_prepare s h

theorem cmInv_runOps (ops : List CMOp) : cmInv (runOps ops) := by
  unfold runOps
  induction ops using List.reverseRecOn with
  | nil => exact cmInv_start
  | append_singleton xs x ih =>
    rw [List.foldl_append, List.foldl_cons, List.foldl_nil]
    exact cmInv_step _ x ih

theorem iter_consulted_of_cmInv (s : CMState) (h : cmInv s) :
    (iter_consulted s).2 = prepareInvDB s.cache := by
  obtain ⟨h1, h2, h3⟩ := h
  unfold iter_consulted cm_prepare_iter_by_docid
  by_cases hi : s.inverted
  · rw [if_pos hi]
    by_cases hc : s.created
    · simp only [hc, if_true]
      rw [h2 hi hc]
      rfl
    · have hcf : s.created = false := by simpa using hc
      simp only [hcf, Bool.false_eq_true, if_false]
      rw [h1 hcf]
      rfl
  · rw [if_neg hi]
    by_cases hc : s.created = false
    · rw [if_pos hc]
      show (if s.created = true then _ else _) = _
      rw [hc]
      simp only [Bool.false_eq_true, if_false]
      rw [h1 hc]
      rfl
    · rw [if_neg hc]
      have hct : s.created = true := by simpa using hc
      show (if s.created = true then Option.getD (some (prepareInvDB s.cache)) [] else [])
          = prepareInvDB s.cache
      rw [hct, if_pos rfl]
      rfl

/-- C8: after any sequence of store writes, deletes and `iter_by_docid`
reads from a fresh manager, (a) the inversion structure consulted by the
next `iter_by_docid` is exactly the inversion of the hit lists current at
that moment, and (b) every store mutation (`__setitem__` or `__delitem__`)
leaves the inverted flag lowered and the auxiliary structure deleted — it is
removed wholesale, never patched. -/
theorem mutation_invalidates_inversion (ops : List CMOp) :
    ((iter_consulted (runOps ops)).2 = prepareInvDB (runOps ops).cache) ∧
    (∀ q hl, (setitem q hl (runOps ops)).inverted = false ∧
      (setitem q hl (runOps ops)).invdb = none) ∧
    (∀ q, (delitem q (runOps ops)).inverted = false ∧
      (delitem q (runOps ops)).invdb = none) := by
  have h := cmInv_runOps ops
  refine ⟨iter_consulted_of_cmInv _ h, ?_, ?_⟩
  · intro q hl
    exact ⟨(cmInv_invalidate_mutation _ _ h).2.1, (cmInv_invalidate_mutation _ _ h).2.2⟩
  · intro q
    exact ⟨(cmInv_invalidate_mutation _ _ h).2.1, (cmInv_invalidate_mutation _ _ h).2.2⟩

end Xappy
